import Mathlib

/-!
Shallow embedding of `mealpy/swarm_based/ALO.py` (Ant Lion Optimizer, classes
`OriginalALO` and `DevALO`) over exact rational arithmetic, together with
theorems about the embedded operations.

Machine floats are modelled by `ℚ`; where a float division by zero matters
(`0/0` is NaN for IEEE floats but `0` for `ℚ`) a second, `Option`-valued
reading of the same source line is given, with `none` standing for NaN.

The pseudorandom generator `self.generator` is modelled as an explicit stream
of rationals in `[0, 1)` together with a cursor; each call to
`generator.random()` consumes one value, `generator.random(n)` consumes `n`.

External collaborators that live in the surrounding Optimizer framework
(`validator.check_int`, `get_index_roulette_wheel_selection`,
`correct_solution`, `get_sorted_and_trimmed_population`, the elite update
done by `Optimizer.solve`) are not part of the given source file; they are
modelled from the specification and carry a doc comment saying so.
-/

/-- Stream model of `self.generator`: an infinite stream of draws in `[0, 1)`
plus the position of the next unconsumed draw. -/
structure Rng where
  stream : ℕ → ℚ
  pos : ℕ

/-- `self.generator.random()`: one scalar draw. -/
def Rng.next (g : Rng) : ℚ × Rng :=
  (g.stream g.pos, ⟨g.stream, g.pos + 1⟩)

/-- `self.generator.random(n)`: a vector of `n` draws. -/
def Rng.nextVec (g : Rng) (n : ℕ) : List ℚ × Rng :=
  ((List.range n).map fun i => g.stream (g.pos + i), ⟨g.stream, g.pos + n⟩)

/-- The configuration an `OriginalALO`/`DevALO` instance carries:
`self.epoch`, `self.pop_size`, `self.problem.n_dims`, `self.problem.lb`,
`self.problem.ub` and the optimization direction (`minmax == "min"`). -/
structure ALOConfig where
  epoch : ℕ
  pop_size : ℕ
  n_dims : ℕ
  lb : List ℚ
  ub : List ℚ
  minimize : Bool

/-- The shrink ratio `I` of `random_walk_antlion__` (ALO.py lines 56-66 and
163-173, identical in the two classes).  The source assigns `I` repeatedly,
the last satisfied threshold winning; since the thresholds are checked in
increasing order this is the first satisfied threshold read from the top. -/
def shrinkI (t T : ℚ) : ℚ :=
  let I1 : ℚ := 1
  let I2 := if T / 10 < t then 1 + 100 * (t / T) else I1
  let I3 := if T / 2 < t then 1 + 1000 * (t / T) else I2
  let I4 := if T * (3 / 4) < t then 1 + 10000 * (t / T) else I3
  let I5 := if T * (9 / 10) < t then 1 + 100000 * (t / T) else I4
  if T * (19 / 20) < t then 1 + 1000000 * (t / T) else I5

/-- `shrinkI` with both arguments merged into the single ratio `u = t / T`;
used to prove facts about `shrinkI` for positive horizons. -/
def shrinkAux (u : ℚ) : ℚ :=
  let I1 : ℚ := 1
  let I2 := if 1 / 10 < u then 1 + 100 * u else I1
  let I3 := if 1 / 2 < u then 1 + 1000 * u else I2
  let I4 := if 3 / 4 < u then 1 + 10000 * u else I3
  let I5 := if 9 / 10 < u then 1 + 100000 * u else I4
  if 19 / 20 < u then 1 + 1000000 * u else I5

lemma shrinkI_eq_shrinkAux (t T : ℚ) (hT : 0 < T) : shrinkI t T = shrinkAux (t / T) := by
  have h1 : (T / 10 < t) ↔ ((1 : ℚ) / 10 < t / T) := by
    rw [lt_div_iff₀ hT]; constructor <;> intro h <;> linarith
  have h2 : (T / 2 < t) ↔ ((1 : ℚ) / 2 < t / T) := by
    rw [lt_div_iff₀ hT]; constructor <;> intro h <;> linarith
  have h3 : (T * (3 / 4) < t) ↔ ((3 : ℚ) / 4 < t / T) := by
    rw [lt_div_iff₀ hT]; constructor <;> intro h <;> linarith
  have h4 : (T * (9 / 10) < t) ↔ ((9 : ℚ) / 10 < t / T) := by
    rw [lt_div_iff₀ hT]; constructor <;> intro h <;> linarith
  have h5 : (T * (19 / 20) < t) ↔ ((19 : ℚ) / 20 < t / T) := by
    rw [lt_div_iff₀ hT]; constructor <;> intro h <;> linarith
  simp only [shrinkI, shrinkAux, h1, h2, h3, h4, h5]

lemma shrinkAux_mono {u1 u2 : ℚ} (h : u1 ≤ u2) : shrinkAux u1 ≤ shrinkAux u2 := by
  simp only [shrinkAux]
  split_ifs <;> linarith

lemma shrinkAux_eq_one {u : ℚ} (h : u ≤ 1 / 10) : shrinkAux u = 1 := by
  simp only [shrinkAux]
  split_ifs <;> linarith

/-- **C3.** The shrink ratio `I` computed by `random_walk_antlion__` is
monotonically non-decreasing in the current epoch `t` for a fixed positive
maximum epoch `T`, and equals `1` whenever `t ≤ T / 10`.  Both classes
compute `I` by the same code (ALO.py lines 56-66 = lines 163-173), embedded
once as `shrinkI`. -/
theorem shrinkI_monotone_and_one_below_tenth (t1 t2 T : ℚ) (hT : 0 < T) :
    (t1 ≤ t2 → shrinkI t1 T ≤ shrinkI t2 T) ∧ (t1 ≤ T / 10 → shrinkI t1 T = 1) := by
  constructor
  · intro h12
    rw [shrinkI_eq_shrinkAux t1 T hT, shrinkI_eq_shrinkAux t2 T hT]
    exact shrinkAux_mono (by rw [div_le_div_iff₀ hT hT]; nlinarith)
  · intro h1
    rw [shrinkI_eq_shrinkAux t1 T hT]
    apply shrinkAux_eq_one
    rw [div_le_div_iff₀ hT (by norm_num : (0 : ℚ) < 10)]
    linarith

/-- Witness for C3 at `t1 = 2`, `t2 = 19`, `T = 20`. -/
theorem shrinkI_monotone_and_one_below_tenth_witness :
    (shrinkI 2 20 ≤ shrinkI 19 20) ∧ shrinkI 2 20 = 1 := by
  have h := shrinkI_monotone_and_one_below_tenth 2 19 20 (by norm_num)
  exact ⟨h.1 (by norm_num), h.2 (by norm_num)⟩

/-- `np.cumsum`: list of partial sums (ALO.py lines 85 and 182). -/
def cumsum (l : List ℚ) : List ℚ := (l.scanl (· + ·) 0).tail

/-- `np.min` of a vector (`a` in line 86, per-row in line 183). -/
def listMin : List ℚ → ℚ
  | [] => 0
  | x :: xs => xs.foldl min x

/-- `np.max` of a vector (`b` in line 87, per-row in line 184). -/
def listMax : List ℚ → ℚ
  | [] => 0
  | x :: xs => xs.foldl max x

/-- One step of the walk: `2 * (draw > 0.5) - 1`, i.e. `1` if the draw
exceeds one half and `-1` otherwise (ALO.py lines 85 and 182). -/
def stepOf (r : ℚ) : ℚ := 2 * (if 1 / 2 < r then 1 else 0) - 1

/-- One raw cumulative random walk `X = np.cumsum(2 * (draws > 0.5) - 1)`. -/
def rawWalk (draws : List ℚ) : List ℚ := cumsum (draws.map stepOf)

/-- Equation (2.7) normalisation of one walk row onto `[c, d]` as written in
`OriginalALO` (line 90): `X_norm = ((X - a) * (d - c)) / (b - a) + c`. -/
def normRow (X : List ℚ) (c d : ℚ) : List ℚ :=
  X.map fun x => (x - listMin X) * (d - c) / (listMax X - listMin X) + c

/-- The same normalisation as written in `DevALO` (lines 185-187):
`temp1 = (ub - lb) / (b - a)` reshaped, `X_norm = (X - a) * temp1 + lb`. -/
def normRowDev (X : List ℚ) (c d : ℚ) : List ℚ :=
  X.map fun x => (x - listMin X) * ((d - c) / (listMax X - listMin X)) + c

/-- Shrinking of the bounds by `I` and random recentering around the
reference solution (ALO.py lines 68-80, identically lines 174-179):
`lb = lb/I`, `ub = ub/I`, then each is translated by `+solution` with
probability one half and by `-(bound) + solution` otherwise, independently
for the lower and the upper bound. -/
def recenter (cfg : ALOConfig) (solution : List ℚ) (current_epoch : ℕ) (g : Rng) :
    (List ℚ × List ℚ) × Rng :=
  let I := shrinkI (current_epoch : ℚ) (cfg.epoch : ℚ)
  let lb1 := cfg.lb.map (· / I)
  let ub1 := cfg.ub.map (· / I)
  let d1 := g.next
  let lb2 := if d1.1 < 1 / 2 then List.zipWith (· + ·) lb1 solution
             else List.zipWith (fun b s => -b + s) lb1 solution
  let d2 := d1.2.next
  let ub2 := if d2.1 < 1 / 2 then List.zipWith (· + ·) ub1 solution
             else List.zipWith (fun b s => -b + s) ub1 solution
  ((lb2, ub2), d2.2)

/-- The per-dimension loop of `OriginalALO.random_walk_antlion__` (lines
83-91): for each dimension `k`, draw `epoch` uniforms, build the cumulative
walk and normalise it onto `[lb[k], ub[k]]`. -/
def walkRowsOriginal (cfg : ALOConfig) (lbR ubR : List ℚ) : ℕ → ℕ → Rng → List (List ℚ) × Rng
  | _, 0, g => ([], g)
  | k, n + 1, g =>
      let dr := g.nextVec cfg.epoch
      let row := normRow (rawWalk dr.1) (lbR.getD k 0) (ubR.getD k 0)
      let rest := walkRowsOriginal cfg lbR ubR (k + 1) n dr.2
      (row :: rest.1, rest.2)

/-- `OriginalALO.random_walk_antlion__` (ALO.py lines 55-92). -/
def OriginalALO.random_walk_antlion__ (cfg : ALOConfig) (solution : List ℚ)
    (current_epoch : ℕ) (g : Rng) : List (List ℚ) × Rng :=
  let rc := recenter cfg solution current_epoch g
  walkRowsOriginal cfg rc.1.1 rc.1.2 0 cfg.n_dims rc.2

/-- The raw walk matrix of `DevALO.random_walk_antlion__` (line 182): one
cumulative walk of `pop_size` steps per dimension. -/
def devWalkMatrix (cfg : ALOConfig) : ℕ → Rng → List (List ℚ) × Rng
  | 0, g => ([], g)
  | n + 1, g =>
      let dr := g.nextVec cfg.pop_size
      let rest := devWalkMatrix cfg n dr.2
      (rawWalk dr.1 :: rest.1, rest.2)

/-- `DevALO.random_walk_antlion__` (ALO.py lines 162-188). -/
def DevALO.random_walk_antlion__ (cfg : ALOConfig) (solution : List ℚ)
    (current_epoch : ℕ) (g : Rng) : List (List ℚ) × Rng :=
  let rc := recenter cfg solution current_epoch g
  let xm := devWalkMatrix cfg cfg.n_dims rc.2
  ((List.range cfg.n_dims).map fun k =>
      normRowDev (xm.1.getD k []) (rc.1.1.getD k 0) (rc.1.2.getD k 0), xm.2)

lemma cumsum_length (l : List ℚ) : (cumsum l).length = l.length := by
  simp [cumsum, List.length_scanl, List.length_tail]

lemma rawWalk_length (draws : List ℚ) : (rawWalk draws).length = draws.length := by
  simp [rawWalk, cumsum_length]

lemma normRow_length (X : List ℚ) (c d : ℚ) : (normRow X c d).length = X.length := by
  simp [normRow]

lemma normRowDev_length (X : List ℚ) (c d : ℚ) : (normRowDev X c d).length = X.length := by
  simp [normRowDev]

lemma nextVec_fst_length (g : Rng) (n : ℕ) : (g.nextVec n).1.length = n := by
  simp [Rng.nextVec]

lemma walkRowsOriginal_length (cfg : ALOConfig) (lbR ubR : List ℚ) :
    ∀ count k g, ((walkRowsOriginal cfg lbR ubR k count g).1.length = count) := by
  intro count
  induction count with
  | zero => intro k g; simp [walkRowsOriginal]
  | succ n ih => intro k g; simp [walkRowsOriginal, ih]

lemma walkRowsOriginal_row_length (cfg : ALOConfig) (lbR ubR : List ℚ) :
    ∀ count k g row, row ∈ (walkRowsOriginal cfg lbR ubR k count g).1 →
      row.length = cfg.epoch := by
  intro count
  induction count with
  | zero => intro k g row h; simp [walkRowsOriginal] at h
  | succ n ih =>
      intro k g row h
      simp only [walkRowsOriginal, List.mem_cons] at h
      rcases h with h | h
      · subst h; rw [normRow_length, rawWalk_length, nextVec_fst_length]
      · exact ih (k + 1) _ row h

lemma orig_walk_length (cfg : ALOConfig) (solution : List ℚ) (t : ℕ) (g : Rng) :
    (OriginalALO.random_walk_antlion__ cfg solution t g).1.length = cfg.n_dims := by
  simp [OriginalALO.random_walk_antlion__, walkRowsOriginal_length]

lemma orig_walk_row_length (cfg : ALOConfig) (solution : List ℚ) (t : ℕ) (g : Rng) :
    ∀ row ∈ (OriginalALO.random_walk_antlion__ cfg solution t g).1,
      row.length = cfg.epoch := by
  intro row h
  exact walkRowsOriginal_row_length cfg _ _ cfg.n_dims 0 _ row h

lemma devWalkMatrix_length (cfg : ALOConfig) :
    ∀ count g, ((devWalkMatrix cfg count g).1.length = count) := by
  intro count
  induction count with
  | zero => intro g; simp [devWalkMatrix]
  | succ n ih => intro g; simp [devWalkMatrix, ih]

lemma devWalkMatrix_row_length (cfg : ALOConfig) :
    ∀ count g row, row ∈ (devWalkMatrix cfg count g).1 → row.length = cfg.pop_size := by
  intro count
  induction count with
  | zero => intro g row h; simp [devWalkMatrix] at h
  | succ n ih =>
      intro g row h
      simp only [devWalkMatrix, List.mem_cons] at h
      rcases h with h | h
      · subst h; rw [rawWalk_length, nextVec_fst_length]
      · exact ih _ row h

lemma dev_walk_length (cfg : ALOConfig) (solution : List ℚ) (t : ℕ) (g : Rng) :
    (DevALO.random_walk_antlion__ cfg solution t g).1.length = cfg.n_dims := by
  simp [DevALO.random_walk_antlion__]

lemma dev_walk_row_length (cfg : ALOConfig) (solution : List ℚ) (t : ℕ) (g : Rng) :
    ∀ row ∈ (DevALO.random_walk_antlion__ cfg solution t g).1,
      row.length = cfg.pop_size := by
  intro row h
  simp only [DevALO.random_walk_antlion__, List.mem_map, List.mem_range] at h
  obtain ⟨k, hk, hrow⟩ := h
  subst hrow
  rw [normRowDev_length]
  have hlen : ((devWalkMatrix cfg cfg.n_dims (recenter cfg solution t g).2).1).length =
      cfg.n_dims := devWalkMatrix_length cfg _ _
  have hklt : k < ((devWalkMatrix cfg cfg.n_dims (recenter cfg solution t g).2).1).length := by
    omega
  rw [List.getD_eq_getElem _ _ hklt]
  exact devWalkMatrix_row_length cfg _ _ _ (List.getElem_mem hklt)

/-- **C1 (amended).** `random_walk_antlion__` applied to a reference solution
returns a matrix with `n_dims` rows; in `OriginalALO` every row has length
`self.epoch` (the configured maximum epoch count), while in `DevALO` every
row has length `self.pop_size` (line 182 draws `pop_size` steps per
dimension), not `self.epoch`. -/
theorem random_walk_antlion_shape (cfg : ALOConfig) (solution : List ℚ) (t : ℕ) (g : Rng) :
    ((OriginalALO.random_walk_antlion__ cfg solution t g).1.length = cfg.n_dims ∧
      ∀ row ∈ (OriginalALO.random_walk_antlion__ cfg solution t g).1,
        row.length = cfg.epoch) ∧
    ((DevALO.random_walk_antlion__ cfg solution t g).1.length = cfg.n_dims ∧
      ∀ row ∈ (DevALO.random_walk_antlion__ cfg solution t g).1,
        row.length = cfg.pop_size) :=
  ⟨⟨orig_walk_length cfg solution t g, orig_walk_row_length cfg solution t g⟩,
    ⟨dev_walk_length cfg solution t g, dev_walk_row_length cfg solution t g⟩⟩

/-- Concrete configuration with `epoch = 50`, `pop_size = 5`, `n_dims = 1`,
bounds `[-10, 10]`, minimization. -/
def cexCfg : ALOConfig := ⟨50, 5, 1, [-10], [10], true⟩

/-- Concrete all-zeros pseudorandom stream at position `0`. -/
def rng0 : Rng := ⟨fun _ => 0, 0⟩

/-- Witness for C1 (amended) at `cexCfg`: the `OriginalALO` matrix is
`1 × 50` and the `DevALO` matrix is `1 × 5`. -/
theorem random_walk_antlion_shape_witness :
    (OriginalALO.random_walk_antlion__ cexCfg [0] 1 rng0).1.length = cexCfg.n_dims ∧
    ((OriginalALO.random_walk_antlion__ cexCfg [0] 1 rng0).1.getD 0 []).length = 50 ∧
    ((DevALO.random_walk_antlion__ cexCfg [0] 1 rng0).1.getD 0 []).length = 5 := by
  have h := random_walk_antlion_shape cexCfg [0] 1 rng0
  have horiglen : (OriginalALO.random_walk_antlion__ cexCfg [0] 1 rng0).1.length = 1 := h.1.1
  have hdevlen : (DevALO.random_walk_antlion__ cexCfg [0] 1 rng0).1.length = 1 := h.2.1
  have h0 : (0 : ℕ) < (OriginalALO.random_walk_antlion__ cexCfg [0] 1 rng0).1.length := by omega
  have h0d : (0 : ℕ) < (DevALO.random_walk_antlion__ cexCfg [0] 1 rng0).1.length := by omega
  refine ⟨h.1.1, ?_, ?_⟩
  · rw [List.getD_eq_getElem _ _ h0]
    exact h.1.2 _ (List.getElem_mem h0)
  · rw [List.getD_eq_getElem _ _ h0d]
    exact h.2.2 _ (List.getElem_mem h0d)

/-- **C1 (counterexample).** The claim as stated fails on `DevALO`: with
`epoch = 50` and `pop_size = 5` the returned matrix's row has length `5`,
the population size, not the configured maximum epoch count `50`. -/
theorem dev_walk_row_length_ne_epoch :
    ¬ ∀ row ∈ (DevALO.random_walk_antlion__ cexCfg [0] 1 rng0).1,
        row.length = cexCfg.epoch := by
  intro h
  have hdevlen : (DevALO.random_walk_antlion__ cexCfg [0] 1 rng0).1.length = 1 :=
    dev_walk_length cexCfg [0] 1 rng0
  have h0d : (0 : ℕ) < (DevALO.random_walk_antlion__ cexCfg [0] 1 rng0).1.length := by omega
  have hmem := List.getElem_mem h0d
  have h5 := dev_walk_row_length cexCfg [0] 1 rng0 _ hmem
  have h50 := h _ hmem
  rw [h50] at h5
  simp [cexCfg] at h5

/-- Division as IEEE floats behave on the walk normalisation: dividing by a
zero denominator does not yield a number (`none` stands for the NaN that
`numpy` produces for `0/0` here). -/
def qdivF (x y : ℚ) : Option ℚ := if y = 0 then none else some (x / y)

/-- IEEE-faithful reading of the very same source line as `normRow`
(`X_norm = ((X - a) * (d - c)) / (b - a) + c`, ALO.py line 90): when the raw
walk has zero range the division is `0/0` and the entry is NaN. -/
def normRowF (X : List ℚ) (c d : ℚ) : List (Option ℚ) :=
  X.map fun x => (qdivF ((x - listMin X) * (d - c)) (listMax X - listMin X)).map (· + c)

/-- The per-dimension loop of `OriginalALO.random_walk_antlion__` under the
IEEE-faithful reading of line 90. -/
def walkRowsOriginalF (cfg : ALOConfig) (lbR ubR : List ℚ) :
    ℕ → ℕ → Rng → List (List (Option ℚ)) × Rng
  | _, 0, g => ([], g)
  | k, n + 1, g =>
      let dr := g.nextVec cfg.epoch
      let row := normRowF (rawWalk dr.1) (lbR.getD k 0) (ubR.getD k 0)
      let rest := walkRowsOriginalF cfg lbR ubR (k + 1) n dr.2
      (row :: rest.1, rest.2)

/-- `OriginalALO.random_walk_antlion__` under the IEEE-faithful reading of
line 90; it differs from `OriginalALO.random_walk_antlion__` only in
recording a division by zero as `none` instead of the `ℚ` convention `0`. -/
def OriginalALO.random_walk_antlion_ieee (cfg : ALOConfig) (solution : List ℚ)
    (current_epoch : ℕ) (g : Rng) : List (List (Option ℚ)) × Rng :=
  let rc := recenter cfg solution current_epoch g
  walkRowsOriginalF cfg rc.1.1 rc.1.2 0 cfg.n_dims rc.2

/-- Configuration with the smallest admissible horizon `epoch = 1`. -/
def cfgEpoch1 : ALOConfig := ⟨1, 5, 1, [-10], [10], true⟩

/-- **C2 (code_bug).** Neither variant special-cases a zero-range walk: line
90 of `OriginalALO.random_walk_antlion__` divides by `b - a` unguarded.
With `epoch = 1` every raw walk has length `1`, so `min = max`, the division
is `0/0`, and the returned matrix consists of NaN — not of defined real
values as the specification requires. -/
theorem original_walk_nan_at_epoch_one :
    (OriginalALO.random_walk_antlion_ieee cfgEpoch1 [0] 1 rng0).1 = [[none]] := by
  norm_num [OriginalALO.random_walk_antlion_ieee, recenter, walkRowsOriginalF, normRowF,
    qdivF, rawWalk, cumsum, stepOf, Rng.next, Rng.nextVec, listMin, listMax, shrinkI,
    cfgEpoch1, rng0, List.range_succ]

lemma foldl_min_le_init (xs : List ℚ) : ∀ acc, xs.foldl min acc ≤ acc := by
  induction xs with
  | nil => intro acc; exact le_refl acc
  | cons b xs ih =>
      intro acc
      exact le_trans (ih (min acc b)) (min_le_left acc b)

lemma foldl_min_le_mem (xs : List ℚ) : ∀ acc x, x ∈ xs → xs.foldl min acc ≤ x := by
  induction xs with
  | nil => intro acc x h; simp at h
  | cons b xs ih =>
      intro acc x h
      rcases List.mem_cons.1 h with h | h
      · subst h
        exact le_trans (foldl_min_le_init xs (min acc x)) (min_le_right acc x)
      · exact ih (min acc b) x h

lemma init_le_foldl_max (xs : List ℚ) : ∀ acc, acc ≤ xs.foldl max acc := by
  induction xs with
  | nil => intro acc; exact le_refl acc
  | cons b xs ih =>
      intro acc
      exact le_trans (le_max_left acc b) (ih (max acc b))

lemma mem_le_foldl_max (xs : List ℚ) : ∀ acc x, x ∈ xs → x ≤ xs.foldl max acc := by
  induction xs with
  | nil => intro acc x h; simp at h
  | cons b xs ih =>
      intro acc x h
      rcases List.mem_cons.1 h with h | h
      · subst h
        exact le_trans (le_max_right acc x) (init_le_foldl_max xs (max acc x))
      · exact ih (max acc b) x h

lemma listMin_le_of_mem {l : List ℚ} {x : ℚ} (h : x ∈ l) : listMin l ≤ x := by
  cases l with
  | nil => simp at h
  | cons a xs =>
      rcases List.mem_cons.1 h with h | h
      · subst h; exact foldl_min_le_init xs x
      · exact foldl_min_le_mem xs a x h

lemma le_listMax_of_mem {l : List ℚ} {x : ℚ} (h : x ∈ l) : x ≤ listMax l := by
  cases l with
  | nil => simp at h
  | cons a xs =>
      rcases List.mem_cons.1 h with h | h
      · subst h; exact init_le_foldl_max xs x
      · exact mem_le_foldl_max xs a x h

lemma listMin_lt_listMax {l : List ℚ} {x y : ℚ} (hx : x ∈ l) (hy : y ∈ l)
    (hxy : x ≠ y) : listMin l < listMax l := by
  have h1 := listMin_le_of_mem hx
  have h2 := le_listMax_of_mem hx
  have h3 := listMin_le_of_mem hy
  have h4 := le_listMax_of_mem hy
  by_contra hc
  push_neg at hc
  exact hxy (le_antisymm (by linarith) (by linarith))

lemma stepOf_ne_zero (r : ℚ) : stepOf r ≠ 0 := by
  unfold stepOf; split_ifs <;> norm_num

lemma head_mem_scanl (f : ℚ → ℚ → ℚ) (b : ℚ) (l : List ℚ) : b ∈ List.scanl f b l := by
  cases l with
  | nil => simp [List.scanl_nil]
  | cons a l => simp [List.scanl_cons]

lemma rawWalk_pair (d0 d1 : ℚ) (rest : List ℚ) :
    (0 + stepOf d0) ∈ rawWalk (d0 :: d1 :: rest) ∧
    (0 + stepOf d0 + stepOf d1) ∈ rawWalk (d0 :: d1 :: rest) := by
  simp only [rawWalk, List.map_cons, cumsum, List.scanl_cons, List.tail_cons]
  refine ⟨List.mem_cons_self _ _, List.mem_cons_of_mem _ ?_⟩
  exact head_mem_scanl _ _ _

lemma rawWalk_min_lt_max {draws : List ℚ} (h : 2 ≤ draws.length) :
    listMin (rawWalk draws) < listMax (rawWalk draws) := by
  match draws, h with
  | d0 :: d1 :: rest, _ =>
      obtain ⟨h1, h2⟩ := rawWalk_pair d0 d1 rest
      refine listMin_lt_listMax h1 h2 ?_
      have hs := stepOf_ne_zero d1
      intro he
      apply hs
      linarith

lemma affine_combo_bounds {q c d : ℚ} (h0 : 0 ≤ q) (h1 : q ≤ 1) :
    min c d ≤ q * (d - c) + c ∧ q * (d - c) + c ≤ max c d := by
  rcases le_total c d with h | h
  · rw [min_eq_left h, max_eq_right h]
    constructor <;> nlinarith
  · rw [min_eq_right h, max_eq_left h]
    constructor <;> nlinarith

lemma normRow_mem_bounds {X : List ℚ} {c d x : ℚ} (hx : x ∈ normRow X c d)
    (hab : listMin X < listMax X) : min c d ≤ x ∧ x ≤ max c d := by
  simp only [normRow, List.mem_map] at hx
  obtain ⟨y, hy, rfl⟩ := hx
  have ha := listMin_le_of_mem hy
  have hb := le_listMax_of_mem hy
  have hba : 0 < listMax X - listMin X := by linarith
  have hrw : (y - listMin X) * (d - c) / (listMax X - listMin X) =
      ((y - listMin X) / (listMax X - listMin X)) * (d - c) := by ring
  rw [hrw]
  apply affine_combo_bounds
  · exact div_nonneg (by linarith) (le_of_lt hba)
  · rw [div_le_one hba]; linarith

lemma normRowDev_eq_normRow (X : List ℚ) (c d : ℚ) : normRowDev X c d = normRow X c d := by
  simp only [normRowDev, normRow, mul_div_assoc]

lemma walkRowsOriginal_getD_spec (cfg : ALOConfig) (lbR ubR : List ℚ) :
    ∀ count k0 g j, j < count →
      ∃ draws : List ℚ, draws.length = cfg.epoch ∧
        (walkRowsOriginal cfg lbR ubR k0 count g).1.getD j [] =
          normRow (rawWalk draws) (lbR.getD (k0 + j) 0) (ubR.getD (k0 + j) 0) := by
  intro count
  induction count with
  | zero => intro k0 g j h; omega
  | succ n ih =>
      intro k0 g j hj
      cases j with
      | zero =>
          refine ⟨(g.nextVec cfg.epoch).1, nextVec_fst_length g _, ?_⟩
          simp [walkRowsOriginal]
      | succ m =>
          obtain ⟨draws, hlen, heq⟩ := ih (k0 + 1) (g.nextVec cfg.epoch).2 m (by omega)
          refine ⟨draws, hlen, ?_⟩
          have hidx : k0 + 1 + m = k0 + (m + 1) := by omega
          simp only [walkRowsOriginal, List.getD_cons_succ]
          rw [heq, hidx]

lemma devWalkMatrix_getD_spec (cfg : ALOConfig) :
    ∀ count g j, j < count →
      ∃ draws : List ℚ, draws.length = cfg.pop_size ∧
        (devWalkMatrix cfg count g).1.getD j [] = rawWalk draws := by
  intro count
  induction count with
  | zero => intro g j h; omega
  | succ n ih =>
      intro g j hj
      cases j with
      | zero =>
          refine ⟨(g.nextVec cfg.pop_size).1, nextVec_fst_length g _, ?_⟩
          simp [devWalkMatrix]
      | succ m =>
          obtain ⟨draws, hlen, heq⟩ := ih (g.nextVec cfg.pop_size).2 m (by omega)
          refine ⟨draws, hlen, ?_⟩
          simp only [devWalkMatrix, List.getD_cons_succ]
          exact heq

/-- **C4.** For every reference solution, every epoch and every pseudorandom
stream, every entry of row `k` of the matrix returned by
`random_walk_antlion__` lies between the two recentered shrunk bounds for
dimension `k` (the bounds divided by `I` and translated by the reference, as
computed by `recenter`), whichever of the two is smaller — including when
the random recentering makes the lower one exceed the upper one.  The walk
must have at least two steps (`epoch ≥ 2` for `OriginalALO`, `pop_size ≥ 2`
for `DevALO`), which is exactly the non-degenerate case of C2. -/
theorem walk_entries_within_recentered_bounds (cfg : ALOConfig) (solution : List ℚ)
    (t : ℕ) (g : Rng) :
    (2 ≤ cfg.epoch →
      ∀ k x, x ∈ (OriginalALO.random_walk_antlion__ cfg solution t g).1.getD k [] →
        min ((recenter cfg solution t g).1.1.getD k 0)
            ((recenter cfg solution t g).1.2.getD k 0) ≤ x ∧
        x ≤ max ((recenter cfg solution t g).1.1.getD k 0)
            ((recenter cfg solution t g).1.2.getD k 0)) ∧
    (2 ≤ cfg.pop_size →
      ∀ k x, x ∈ (DevALO.random_walk_antlion__ cfg solution t g).1.getD k [] →
        min ((recenter cfg solution t g).1.1.getD k 0)
            ((recenter cfg solution t g).1.2.getD k 0) ≤ x ∧
        x ≤ max ((recenter cfg solution t g).1.1.getD k 0)
            ((recenter cfg solution t g).1.2.getD k 0)) := by
  constructor
  · intro he k x hx
    simp only [OriginalALO.random_walk_antlion__] at hx
    by_cases hk : k < cfg.n_dims
    · obtain ⟨draws, hlen, heq⟩ :=
        walkRowsOriginal_getD_spec cfg (recenter cfg solution t g).1.1
          (recenter cfg solution t g).1.2 cfg.n_dims 0 (recenter cfg solution t g).2 k hk
      rw [Nat.zero_add] at heq
      rw [heq] at hx
      exact normRow_mem_bounds hx (rawWalk_min_lt_max (by omega))
    · rw [List.getD_eq_default] at hx
      · simp at hx
      · rw [walkRowsOriginal_length]; omega
  · intro he k x hx
    simp only [DevALO.random_walk_antlion__] at hx
    by_cases hk : k < cfg.n_dims
    · have hmaplen : ((List.range cfg.n_dims).map fun k =>
          normRowDev (((devWalkMatrix cfg cfg.n_dims (recenter cfg solution t g).2).1).getD k [])
            ((recenter cfg solution t g).1.1.getD k 0)
            ((recenter cfg solution t g).1.2.getD k 0)).length = cfg.n_dims := by
        simp
      have hklt : k < ((List.range cfg.n_dims).map fun k =>
          normRowDev (((devWalkMatrix cfg cfg.n_dims (recenter cfg solution t g).2).1).getD k [])
            ((recenter cfg solution t g).1.1.getD k 0)
            ((recenter cfg solution t g).1.2.getD k 0)).length := by omega
      rw [List.getD_eq_getElem _ _ hklt] at hx
      simp only [List.getElem_map, List.getElem_range] at hx
      obtain ⟨draws, hlen, heq⟩ :=
        devWalkMatrix_getD_spec cfg cfg.n_dims (recenter cfg solution t g).2 k hk
      rw [heq, normRowDev_eq_normRow] at hx
      exact normRow_mem_bounds hx (rawWalk_min_lt_max (by omega))
    · rw [List.getD_eq_default] at hx
      · simp at hx
      · simp; omega

/-- Configuration with horizon `epoch = 2`. -/
def cfgEpoch2 : ALOConfig := ⟨2, 5, 1, [-10], [10], true⟩

/-- Witness for C4 at `cfgEpoch2`, reference `[0]`, epoch `1`, all-zeros
stream: the entry `10/51` of row `0` lies between the recentered bounds. -/
theorem walk_entries_within_recentered_bounds_witness :
    min ((recenter cfgEpoch2 [0] 1 rng0).1.1.getD 0 0)
        ((recenter cfgEpoch2 [0] 1 rng0).1.2.getD 0 0) ≤ (10 / 51 : ℚ) ∧
    (10 / 51 : ℚ) ≤ max ((recenter cfgEpoch2 [0] 1 rng0).1.1.getD 0 0)
        ((recenter cfgEpoch2 [0] 1 rng0).1.2.getD 0 0) := by
  apply (walk_entries_within_recentered_bounds cfgEpoch2 [0] 1 rng0).1
    (by norm_num [cfgEpoch2]) 0
  norm_num [OriginalALO.random_walk_antlion__, recenter, walkRowsOriginal, normRow,
    rawWalk, cumsum, stepOf, Rng.next, Rng.nextVec, listMin, listMax, shrinkI,
    cfgEpoch2, rng0, List.range_succ, min_def, max_def]

/-- An evaluated population member: its solution vector and the fitness of
its target.  Agents are values; the reference heap used by C5 models the
Python object identities separately. -/
structure Agent where
  solution : List ℚ
  fitness : ℚ
deriving DecidableEq

/-- Fitness comparison that puts the better agent first: ascending fitness
for minimization, descending for maximization. -/
def fitLE (m : Bool) (a b : Agent) : Bool :=
  if m then decide (a.fitness ≤ b.fitness) else decide (b.fitness ≤ a.fitness)

/-- Insert an element after every already-placed element it does not beat
(stable insertion). -/
def insertBy {α : Type} (le : α → α → Bool) (a : α) : List α → List α
  | [] => [a]
  | b :: l => if le b a then b :: insertBy le a l else a :: b :: l

/-- Stable insertion sort: elements are taken left to right and each is
placed after earlier elements that compare less-or-equal to it. -/
def sortBy {α : Type} (le : α → α → Bool) (l : List α) : List α :=
  l.foldl (fun acc a => insertBy le a acc) []

lemma mem_insertBy {α : Type} (le : α → α → Bool) (a x : α) :
    ∀ l : List α, (x ∈ insertBy le a l ↔ x = a ∨ x ∈ l) := by
  intro l
  induction l with
  | nil => simp [insertBy]
  | cons b l ih =>
      simp only [insertBy]
      split_ifs with h
      · simp only [List.mem_cons, ih]
        tauto
      · simp only [List.mem_cons]

lemma length_insertBy {α : Type} (le : α → α → Bool) (a : α) :
    ∀ l : List α, (insertBy le a l).length = l.length + 1 := by
  intro l
  induction l with
  | nil => simp [insertBy]
  | cons b l ih =>
      simp only [insertBy]
      split_ifs with h
      · simp [ih]
      · simp

lemma mem_foldl_insertBy {α : Type} (le : α → α → Bool) (x : α) :
    ∀ (l acc : List α),
      (x ∈ l.foldl (fun acc a => insertBy le a acc) acc ↔ x ∈ acc ∨ x ∈ l) := by
  intro l
  induction l with
  | nil => intro acc; simp
  | cons a l ih =>
      intro acc
      simp only [List.foldl_cons, ih, mem_insertBy, List.mem_cons]
      tauto

lemma mem_sortBy {α : Type} (le : α → α → Bool) (x : α) (l : List α) :
    x ∈ sortBy le l ↔ x ∈ l := by
  simp [sortBy, mem_foldl_insertBy]

lemma length_foldl_insertBy {α : Type} (le : α → α → Bool) :
    ∀ (l acc : List α),
      (l.foldl (fun acc a => insertBy le a acc) acc).length = acc.length + l.length := by
  intro l
  induction l with
  | nil => intro acc; simp
  | cons a l ih =>
      intro acc
      simp only [List.foldl_cons, ih, length_insertBy, List.length_cons]
      omega

lemma length_sortBy {α : Type} (le : α → α → Bool) (l : List α) :
    (sortBy le l).length = l.length := by
  simp [sortBy, length_foldl_insertBy]

/-- Modelled from the spec: `get_sorted_and_trimmed_population` belongs to
the surrounding Optimizer framework.  Per §4.3 step 4 it sorts the merged
population by fitness in the direction of optimization (best first) and
truncates to `pop_size`; the framework's sort is a stable one. -/
def get_sorted_and_trimmed_population (pop : List Agent) (n : ℕ) (m : Bool) : List Agent :=
  (sortBy (fitLE m) pop).take n

/-- `self.pop[-1] = self.g_best.copy()` read at the level of agent values
(ALO.py line 124 and line 219): the last slot of the population is
overwritten with the elite. -/
def eliteKeep (pop : List Agent) (gb : Agent) : List Agent :=
  pop.set (pop.length - 1) gb

/-- Component-wise containment of a vector in the feasible box. -/
def inBounds (lb ub v : List ℚ) : Prop :=
  ∀ k, k < lb.length → lb.getD k 0 ≤ v.getD k 0 ∧ v.getD k 0 ≤ ub.getD k 0

/-- Modelled from the spec: the Bounds Corrector (`correct_solution`) is an
external collaborator; per §2 and §6 it clamps a raw vector into the
feasible box component-wise. -/
def correct_solution (lb ub v : List ℚ) : List ℚ :=
  (List.range lb.length).map fun k => max (lb.getD k 0) (min (ub.getD k 0) (v.getD k 0))

lemma correct_solution_inBounds (lb ub v : List ℚ)
    (h : ∀ k, k < lb.length → lb.getD k 0 ≤ ub.getD k 0) :
    inBounds lb ub (correct_solution lb ub v) := by
  intro k hk
  have hlen : ((List.range lb.length).map fun k =>
      max (lb.getD k 0) (min (ub.getD k 0) (v.getD k 0))).length = lb.length := by simp
  have hklt : k < ((List.range lb.length).map fun k =>
      max (lb.getD k 0) (min (ub.getD k 0) (v.getD k 0))).length := by omega
  rw [correct_solution, List.getD_eq_getElem _ _ hklt]
  simp only [List.getElem_map, List.getElem_range]
  constructor
  · exact le_max_left _ _
  · exact max_le (h k hk) (min_le_left _ _)

/-- Modelled from the spec: the Roulette-Wheel Selector (§4.1) is the
framework's `get_index_roulette_wheel_selection`.  For minimization the raw
fitness values are first inverted by an offset so that smaller fitness gets
larger weight; one uniform draw `r` picks the first index whose cumulative
weight exceeds `r * total`; a non-positive total weight degenerates to a
uniform random index. -/
def get_index_roulette_wheel_selection (m : Bool) (fits : List ℚ) (r : ℚ) : ℕ :=
  let ws := if m then fits.map (fun x => listMax fits + listMin fits - x) else fits
  let total := ws.foldl (· + ·) 0
  if total ≤ 0 then min (Int.toNat ⌊r * fits.length⌋) (fits.length - 1)
  else min ((cumsum ws).findIdx fun c => decide (r * total < c)) (fits.length - 1)

/-- Column `j` of a walk matrix (`RA[:, j]`). -/
def matCol (M : List (List ℚ)) (j : ℕ) : List ℚ := M.map fun row => row.getD j 0

/-- One candidate of `OriginalALO.evolve` (lines 109-112): walk `RA` around
the selected solution, walk `RE` around the elite, then average column
`epoch - 1` of the two — the same column for every candidate `idx`. -/
def OriginalALO.candidate (cfg : ALOConfig) (ref gbs : List ℚ) (epoch idx : ℕ)
    (g : Rng) : List ℚ × Rng :=
  let ra := OriginalALO.random_walk_antlion__ cfg ref epoch g
  let re := OriginalALO.random_walk_antlion__ cfg gbs epoch ra.2
  (List.zipWith (fun x y => (x + y) / 2) (matCol ra.1 (epoch - 1)) (matCol re.1 (epoch - 1)),
    re.2)

/-- One candidate of `DevALO.evolve` (lines 204-207): same two walks, but
the averaged column is the candidate's own population index `idx`. -/
def DevALO.candidate (cfg : ALOConfig) (ref gbs : List ℚ) (epoch idx : ℕ)
    (g : Rng) : List ℚ × Rng :=
  let ra := DevALO.random_walk_antlion__ cfg ref epoch g
  let re := DevALO.random_walk_antlion__ cfg gbs epoch ra.2
  (List.zipWith (fun x y => (x + y) / 2) (matCol ra.1 idx) (matCol re.1 idx), re.2)

/-- The `for idx in range(0, self.pop_size)` loop of `evolve` (lines
104-118 and 199-213): roulette-select a reference agent from the fitness
list computed before the loop, synthesise a candidate, correct it into the
box and evaluate it.  The candidate construction differs between the two
classes and is passed in as `cand`. -/
def evolveLoop (cfg : ALOConfig) (cand : List ℚ → List ℚ → ℕ → Rng → List ℚ × Rng)
    (corr : List ℚ → List ℚ) (f : List ℚ → ℚ) (fits : List ℚ)
    (pop : List Agent) (gb : Agent) : ℕ → ℕ → Rng → List Agent × Rng
  | _, 0, g => ([], g)
  | idx, n + 1, g =>
      let d := g.next
      let ri := get_index_roulette_wheel_selection cfg.minimize fits d.1
      let refA := pop.getD ri ⟨[], 0⟩
      let c := cand refA.solution gb.solution idx d.2
      let pos := corr c.1
      let rest := evolveLoop cfg cand corr f fits pop gb (idx + 1) n c.2
      (⟨pos, f pos⟩ :: rest.1, rest.2)

/-- The batch of new agents built by one generation of `OriginalALO.evolve`. -/
def OriginalALO.pop_new (cfg : ALOConfig) (corr : List ℚ → List ℚ) (f : List ℚ → ℚ)
    (pop : List Agent) (gb : Agent) (epoch : ℕ) (g : Rng) : List Agent × Rng :=
  evolveLoop cfg (fun ref gbs idx g => OriginalALO.candidate cfg ref gbs epoch idx g)
    corr f (pop.map (·.fitness)) pop gb 0 cfg.pop_size g

/-- `OriginalALO.evolve` (ALO.py lines 94-124): build `pop_size` new agents,
merge with the current population, sort and trim to `pop_size`, then
overwrite the worst slot with the elite. -/
def OriginalALO.evolve (cfg : ALOConfig) (corr : List ℚ → List ℚ) (f : List ℚ → ℚ)
    (pop : List Agent) (gb : Agent) (epoch : ℕ) (g : Rng) : List Agent × Rng :=
  let pn := OriginalALO.pop_new cfg corr f pop gb epoch g
  (eliteKeep (get_sorted_and_trimmed_population (pop ++ pn.1) cfg.pop_size cfg.minimize) gb,
    pn.2)

/-- The batch of new agents built by one generation of `DevALO.evolve`. -/
def DevALO.pop_new (cfg : ALOConfig) (corr : List ℚ → List ℚ) (f : List ℚ → ℚ)
    (pop : List Agent) (gb : Agent) (epoch : ℕ) (g : Rng) : List Agent × Rng :=
  evolveLoop cfg (fun ref gbs idx g => DevALO.candidate cfg ref gbs epoch idx g)
    corr f (pop.map (·.fitness)) pop gb 0 cfg.pop_size g

/-- `DevALO.evolve` (ALO.py lines 190-219). -/
def DevALO.evolve (cfg : ALOConfig) (corr : List ℚ → List ℚ) (f : List ℚ → ℚ)
    (pop : List Agent) (gb : Agent) (epoch : ℕ) (g : Rng) : List Agent × Rng :=
  let pn := DevALO.pop_new cfg corr f pop gb epoch g
  (eliteKeep (get_sorted_and_trimmed_population (pop ++ pn.1) cfg.pop_size cfg.minimize) gb,
    pn.2)

/-- Modelled from the spec: after each generation the surrounding
`Optimizer.solve` updates the elite to the best-fitness agent found so far
(§ Glossary "Elite"); an agent replaces the current elite only when its
fitness is strictly better in the optimization direction. -/
def update_global_best (m : Bool) (gb : Agent) (pop : List Agent) : Agent :=
  pop.foldl
    (fun best a => if (if m then a.fitness < best.fitness else best.fitness < a.fitness)
      then a else best) gb

/-- Generations `t, t+1, ...` of the solve loop, for any per-generation
`evolve` function: returns the final population, elite and stream. -/
def runALO (ev : List Agent → Agent → ℕ → Rng → List Agent × Rng) (m : Bool) :
    ℕ → ℕ → List Agent → Agent → Rng → List Agent × Agent × Rng
  | _, 0, pop, gb, g => (pop, gb, g)
  | t, n + 1, pop, gb, g =>
      let e := ev pop gb t g
      runALO ev m (t + 1) n e.1 (update_global_best m gb e.1) e.2

/-- The best-fitness trajectory: the elite's fitness after each generation. -/
def trajALO (ev : List Agent → Agent → ℕ → Rng → List Agent × Rng) (m : Bool) :
    ℕ → ℕ → List Agent → Agent → Rng → List ℚ
  | _, 0, _, _, _ => []
  | t, n + 1, pop, gb, g =>
      let e := ev pop gb t g
      (update_global_best m gb e.1).fitness ::
        trajALO ev m (t + 1) n e.1 (update_global_best m gb e.1) e.2

/-- The solve loop of `OriginalALO` over `n` generations starting at epoch 1. -/
def OriginalALO.run (cfg : ALOConfig) (corr : List ℚ → List ℚ) (f : List ℚ → ℚ)
    (n : ℕ) (pop : List Agent) (gb : Agent) (g : Rng) : List Agent × Agent × Rng :=
  runALO (OriginalALO.evolve cfg corr f) cfg.minimize 1 n pop gb g

/-- The best-fitness trajectory of `OriginalALO` over `n` generations. -/
def OriginalALO.trajectory (cfg : ALOConfig) (corr : List ℚ → List ℚ) (f : List ℚ → ℚ)
    (n : ℕ) (pop : List Agent) (gb : Agent) (g : Rng) : List ℚ :=
  trajALO (OriginalALO.evolve cfg corr f) cfg.minimize 1 n pop gb g

/-- The solve loop of `DevALO` over `n` generations starting at epoch 1. -/
def DevALO.run (cfg : ALOConfig) (corr : List ℚ → List ℚ) (f : List ℚ → ℚ)
    (n : ℕ) (pop : List Agent) (gb : Agent) (g : Rng) : List Agent × Agent × Rng :=
  runALO (DevALO.evolve cfg corr f) cfg.minimize 1 n pop gb g

/-- The best-fitness trajectory of `DevALO` over `n` generations. -/
def DevALO.trajectory (cfg : ALOConfig) (corr : List ℚ → List ℚ) (f : List ℚ → ℚ)
    (n : ℕ) (pop : List Agent) (gb : Agent) (g : Rng) : List ℚ :=
  trajALO (DevALO.evolve cfg corr f) cfg.minimize 1 n pop gb g

/-- Allocation on a reference heap of agents: `a.copy()` creates a new
object, i.e. appends a fresh cell and returns its reference. -/
def heapAlloc (store : List Agent) (a : Agent) : List Agent × ℕ :=
  (store ++ [a], store.length)

/-- Dereference on the agent heap. -/
def heapGet (store : List Agent) (r : ℕ) : Agent :=
  store.getD r ⟨[], 0⟩

/-- The final two statements of `evolve` (ALO.py lines 122-124 and 217-219)
read at the level of object references: the merged population is sorted by
the fitness of the referenced agents and trimmed, then the last slot is
overwritten with a reference to a fresh copy of the elite
(`self.pop[-1] = self.g_best.copy()`). -/
def evolveTailRef (store : List Agent) (oldRefs newRefs : List ℕ) (gb n : ℕ) (m : Bool) :
    List Agent × List ℕ :=
  let trimmed := (sortBy (fun r s => fitLE m (heapGet store r) (heapGet store s))
    (oldRefs ++ newRefs)).take n
  let al := heapAlloc store (heapGet store gb)
  (al.1, trimmed.set (trimmed.length - 1) al.2)

/-- **C5.** After the population update at the end of `evolve`, the
worst-ranked slot (the last position of the sorted population) holds an
independent copy of the elite `g_best`: the slot references a fresh object
distinct from `g_best`, with the same value, so the best-known fitness is
present in the population, and mutating the object in that slot leaves
`g_best` unchanged. -/
theorem elite_slot_is_independent_copy (store : List Agent) (oldRefs newRefs : List ℕ)
    (gb n : ℕ) (m : Bool) (res : List Agent × List ℕ) (last : ℕ)
    (hgb : gb < store.length)
    (hres : res = evolveTailRef store oldRefs newRefs gb n m)
    (hne : 0 < res.2.length)
    (hlast : last = res.2.getD (res.2.length - 1) 0) :
    last ≠ gb ∧ heapGet res.1 last = heapGet store gb ∧
    heapGet res.1 gb = heapGet store gb ∧
    ∀ a : Agent, heapGet (res.1.set last a) gb = heapGet res.1 gb := by
  subst hres
  simp only [evolveTailRef, heapAlloc] at hne hlast ⊢
  set trimmed := (sortBy (fun r s => fitLE m (heapGet store r) (heapGet store s))
    (oldRefs ++ newRefs)).take n with htr
  have hlen : (trimmed.set (trimmed.length - 1) store.length).length = trimmed.length :=
    List.length_set trimmed _ _
  have hidx : trimmed.length - 1 < (trimmed.set (trimmed.length - 1) store.length).length := by
    rw [hlen]; rw [hlen] at hne; omega
  have hlast2 : last = store.length := by
    rw [hlast, hlen, List.getD_eq_getElem _ _ hidx, List.getElem_set_self]
  subst hlast2
  refine ⟨by omega, ?_, ?_, ?_⟩
  · show heapGet (store ++ [heapGet store gb]) store.length = heapGet store gb
    simp only [heapGet]
    rw [List.getD_append_right store _ _ _ (le_refl _)]
    simp
  · show heapGet (store ++ [heapGet store gb]) gb = heapGet store gb
    simp only [heapGet]
    exact List.getD_append store _ _ gb hgb
  · intro a
    show heapGet ((store ++ [heapGet store gb]).set store.length a) gb =
      heapGet (store ++ [heapGet store gb]) gb
    simp only [heapGet]
    have hglt2 : gb < (store ++ [store.getD gb ⟨[], 0⟩]).length := by
      rw [List.length_append]; simp; omega
    have hglt : gb < ((store ++ [store.getD gb ⟨[], 0⟩]).set store.length a).length := by
      rw [List.length_set]; exact hglt2
    rw [List.getD_eq_getElem _ _ hglt, List.getD_eq_getElem _ _ hglt2]
    exact List.getElem_set_ne (by omega) _

/-- A concrete two-agent heap. -/
def store0 : List Agent := [⟨[1], 1⟩, ⟨[2], 2⟩]

/-- Witness for C5 on `store0` with old population `[0]`, new agents `[1]`,
elite reference `0`, `pop_size = 2`, minimization: the last slot holds the
fresh reference `2`, its value is the elite's, and overwriting it does not
change the elite. -/
theorem elite_slot_is_independent_copy_witness :
    (2 : ℕ) ≠ 0 ∧
    heapGet (evolveTailRef store0 [0] [1] 0 2 true).1 2 = heapGet store0 0 ∧
    heapGet (evolveTailRef store0 [0] [1] 0 2 true).1 0 = heapGet store0 0 ∧
    heapGet ((evolveTailRef store0 [0] [1] 0 2 true).1.set 2 ⟨[9], 9⟩) 0 =
      heapGet (evolveTailRef store0 [0] [1] 0 2 true).1 0 := by
  have h := elite_slot_is_independent_copy store0 [0] [1] 0 2 true
    (evolveTailRef store0 [0] [1] 0 2 true) 2
    (by norm_num [store0]) rfl
    (by norm_num [evolveTailRef, sortBy, insertBy, fitLE, heapGet, heapAlloc, store0])
    (by norm_num [evolveTailRef, sortBy, insertBy, fitLE, heapGet, heapAlloc, store0])
  exact ⟨h.1, h.2.1, h.2.2.1, h.2.2.2 ⟨[9], 9⟩⟩

lemma evolveLoop_members (cfg : ALOConfig) (cand : List ℚ → List ℚ → ℕ → Rng → List ℚ × Rng)
    (corr : List ℚ → List ℚ) (f : List ℚ → ℚ) (fits : List ℚ)
    (pop : List Agent) (gb : Agent) :
    ∀ count idx g a, a ∈ (evolveLoop cfg cand corr f fits pop gb idx count g).1 →
      ∃ v, a = ⟨corr v, f (corr v)⟩ := by
  intro count
  induction count with
  | zero => intro idx g a h; simp [evolveLoop] at h
  | succ n ih =>
      intro idx g a h
      simp only [evolveLoop, List.mem_cons] at h
      rcases h with h | h
      · exact ⟨_, h⟩
      · exact ih (idx + 1) _ a h

lemma eliteKeep_trim_members {pop popNew : List Agent} {gb a : Agent} {n : ℕ} {m : Bool}
    (h : a ∈ eliteKeep (get_sorted_and_trimmed_population (pop ++ popNew) n m) gb) :
    a = gb ∨ a ∈ pop ∨ a ∈ popNew := by
  rcases List.mem_or_eq_of_mem_set h with h | h
  · have h2 := List.take_subset _ _ h
    have h3 := (mem_sortBy (fitLE m) a (pop ++ popNew)).1 h2
    rcases List.mem_append.1 h3 with h4 | h4
    · exact Or.inr (Or.inl h4)
    · exact Or.inr (Or.inr h4)
  · exact Or.inl h

lemma update_global_best_cases (m : Bool) :
    ∀ (pop : List Agent) (gb : Agent),
      update_global_best m gb pop = gb ∨ update_global_best m gb pop ∈ pop := by
  intro pop
  induction pop with
  | nil => intro gb; left; rfl
  | cons a l ih =>
      intro gb
      simp only [update_global_best, List.foldl_cons] at ih ⊢
      rcases ih (if (if m then a.fitness < gb.fitness else gb.fitness < a.fitness)
          then a else gb) with h | h
      · rw [h]
        by_cases hc : (if m = true then a.fitness < gb.fitness else gb.fitness < a.fitness)
        · rw [if_pos hc]; right; exact List.mem_cons_self _ _
        · rw [if_neg hc]; left; rfl
      · right; exact List.mem_cons_of_mem _ h

lemma runALO_invariant (P : Agent → Prop) (ev : List Agent → Agent → ℕ → Rng → List Agent × Rng)
    (m : Bool)
    (hev : ∀ pop gb t g a, (∀ b ∈ pop, P b) → P gb → a ∈ (ev pop gb t g).1 → P a) :
    ∀ n t pop gb g, (∀ b ∈ pop, P b) → P gb →
      ∀ a ∈ (runALO ev m t n pop gb g).1, P a := by
  intro n
  induction n with
  | zero => intro t pop gb g hp _ a ha; exact hp a ha
  | succ k ih =>
      intro t pop gb g hp hg a ha
      simp only [runALO] at ha
      refine ih (t + 1) _ _ _ (fun b hb => hev pop gb t g b hp hg hb) ?_ a ha
      rcases update_global_best_cases m (ev pop gb t g).1 gb with h | h
      · rw [h]; exact hg
      · exact hev pop gb t g _ hp hg h

lemma origEvolve_members {cfg : ALOConfig} {corr : List ℚ → List ℚ}
    {f : List ℚ → ℚ} {pop : List Agent} {gb a : Agent} {epoch : ℕ} {g : Rng}
    (h : a ∈ (OriginalALO.evolve cfg corr f pop gb epoch g).1) :
    a = gb ∨ a ∈ pop ∨ ∃ v, a = ⟨corr v, f (corr v)⟩ := by
  simp only [OriginalALO.evolve] at h
  rcases eliteKeep_trim_members h with h | h | h
  · exact Or.inl h
  · exact Or.inr (Or.inl h)
  · exact Or.inr (Or.inr (evolveLoop_members cfg _ corr f _ pop gb _ 0 _ a h))

lemma devEvolve_members {cfg : ALOConfig} {corr : List ℚ → List ℚ}
    {f : List ℚ → ℚ} {pop : List Agent} {gb a : Agent} {epoch : ℕ} {g : Rng}
    (h : a ∈ (DevALO.evolve cfg corr f pop gb epoch g).1) :
    a = gb ∨ a ∈ pop ∨ ∃ v, a = ⟨corr v, f (corr v)⟩ := by
  simp only [DevALO.evolve] at h
  rcases eliteKeep_trim_members h with h | h | h
  · exact Or.inl h
  · exact Or.inr (Or.inl h)
  · exact Or.inr (Or.inr (evolveLoop_members cfg _ corr f _ pop gb _ 0 _ a h))

/-- **C6.** Assuming the Bounds Corrector contract (the corrector returns a
vector component-wise within `[lb, ub]`) and that the starting population
and the elite are within bounds, every agent of the population is within
bounds after every number `n` of generations of `evolve`, in both variants. -/
theorem population_stays_in_bounds (cfg : ALOConfig) (corr : List ℚ → List ℚ)
    (f : List ℚ → ℚ) (n : ℕ) (pop : List Agent) (gb : Agent) (g : Rng)
    (hcorr : ∀ v, inBounds cfg.lb cfg.ub (corr v))
    (hpop : ∀ a ∈ pop, inBounds cfg.lb cfg.ub a.solution)
    (hgb : inBounds cfg.lb cfg.ub gb.solution) :
    (∀ a ∈ (OriginalALO.run cfg corr f n pop gb g).1, inBounds cfg.lb cfg.ub a.solution) ∧
    (∀ a ∈ (DevALO.run cfg corr f n pop gb g).1, inBounds cfg.lb cfg.ub a.solution) := by
  constructor
  · refine runALO_invariant (fun a => inBounds cfg.lb cfg.ub a.solution) _ _
      ?_ n 1 pop gb g hpop hgb
    intro pop' gb' t g' a hp' hg' ha
    rcases origEvolve_members ha with h | h | ⟨v, rfl⟩
    · rw [h]; exact hg'
    · exact hp' a h
    · exact hcorr v
  · refine runALO_invariant (fun a => inBounds cfg.lb cfg.ub a.solution) _ _
      ?_ n 1 pop gb g hpop hgb
    intro pop' gb' t g' a hp' hg' ha
    rcases devEvolve_members ha with h | h | ⟨v, rfl⟩
    · rw [h]; exact hg'
    · exact hp' a h
    · exact hcorr v

/-- Witness for C6: with the clamping corrector on the box `[-10, 10]`, the
population `[⟨[0], 0⟩]` and elite `⟨[0], 0⟩`, after `0` generations the
member `⟨[0], 0⟩` of the resulting population is within the box. -/
theorem population_stays_in_bounds_witness :
    cfgEpoch2.lb.getD 0 0 ≤ (Agent.mk [0] 0).solution.getD 0 0 ∧
    (Agent.mk [0] 0).solution.getD 0 0 ≤ cfgEpoch2.ub.getD 0 0 := by
  have hb : ∀ k, k < cfgEpoch2.lb.length → cfgEpoch2.lb.getD k 0 ≤ cfgEpoch2.ub.getD k 0 := by
    intro k hk
    have hk0 : k = 0 := by simp [cfgEpoch2] at hk; omega
    subst hk0; norm_num [cfgEpoch2]
  have hin : inBounds cfgEpoch2.lb cfgEpoch2.ub (Agent.mk [0] 0).solution := by
    intro k hk
    have hk0 : k = 0 := by simp [cfgEpoch2] at hk; omega
    subst hk0; norm_num [cfgEpoch2]
  have h := (population_stays_in_bounds cfgEpoch2
      (correct_solution cfgEpoch2.lb cfgEpoch2.ub) (fun _ => 0) 0 [⟨[0], 0⟩] ⟨[0], 0⟩ rng0
      (fun v => correct_solution_inBounds _ _ v hb)
      (by intro a ha; rw [List.mem_singleton] at ha; subst ha; exact hin) hin).1
  have hmem : (Agent.mk [0] 0) ∈ (OriginalALO.run cfgEpoch2
      (correct_solution cfgEpoch2.lb cfgEpoch2.ub) (fun _ => 0) 0 [⟨[0], 0⟩] ⟨[0], 0⟩ rng0).1 := by
    simp [OriginalALO.run, runALO]
  exact h _ hmem 0 (by norm_num [cfgEpoch2])

/-- **C7.** The two classes read different columns of the random-walk
matrices: `OriginalALO.evolve` (line 112) averages column `epoch - 1` of
`RA` and `RE` for every candidate — the candidate index `idx` is
irrelevant — while `DevALO.evolve` (line 207) averages the column equal to
the candidate's own population index `idx`; in both, the chosen columns are
averaged element-wise. -/
theorem column_convention (cfg : ALOConfig) (ref gbs : List ℚ) (epoch idx : ℕ) (g : Rng) :
    ((OriginalALO.candidate cfg ref gbs epoch idx g).1 =
        List.zipWith (fun x y => (x + y) / 2)
          (matCol (OriginalALO.random_walk_antlion__ cfg ref epoch g).1 (epoch - 1))
          (matCol (OriginalALO.random_walk_antlion__ cfg gbs epoch
            (OriginalALO.random_walk_antlion__ cfg ref epoch g).2).1 (epoch - 1)) ∧
      ∀ idx2, OriginalALO.candidate cfg ref gbs epoch idx g =
        OriginalALO.candidate cfg ref gbs epoch idx2 g) ∧
    (DevALO.candidate cfg ref gbs epoch idx g).1 =
      List.zipWith (fun x y => (x + y) / 2)
        (matCol (DevALO.random_walk_antlion__ cfg ref epoch g).1 idx)
        (matCol (DevALO.random_walk_antlion__ cfg gbs epoch
          (DevALO.random_walk_antlion__ cfg ref epoch g).2).1 idx) :=
  ⟨⟨rfl, fun _ => rfl⟩, rfl⟩

/-- **C8.** One generation and hence any run of the solve loop is
deterministic given the pseudorandom stream: identical configurations,
starting populations, elites and identically seeded streams produce
identical populations and identical best-fitness trajectories, in both
variants. -/
theorem run_deterministic (cfg : ALOConfig) (corr : List ℚ → List ℚ) (f : List ℚ → ℚ)
    (n : ℕ) (pop1 pop2 : List Agent) (gb1 gb2 : Agent) (g1 g2 : Rng)
    (hp : pop1 = pop2) (hb : gb1 = gb2) (hg : g1 = g2) :
    OriginalALO.run cfg corr f n pop1 gb1 g1 = OriginalALO.run cfg corr f n pop2 gb2 g2 ∧
    OriginalALO.trajectory cfg corr f n pop1 gb1 g1 =
      OriginalALO.trajectory cfg corr f n pop2 gb2 g2 ∧
    DevALO.run cfg corr f n pop1 gb1 g1 = DevALO.run cfg corr f n pop2 gb2 g2 ∧
    DevALO.trajectory cfg corr f n pop1 gb1 g1 =
      DevALO.trajectory cfg corr f n pop2 gb2 g2 := by
  subst hp; subst hb; subst hg
  exact ⟨rfl, rfl, rfl, rfl⟩

/-- Witness for C8 on a concrete one-generation run. -/
theorem run_deterministic_witness :
    OriginalALO.run cfgEpoch2 (correct_solution cfgEpoch2.lb cfgEpoch2.ub) (fun _ => 0) 1
        [⟨[0], 0⟩] ⟨[0], 0⟩ rng0 =
      OriginalALO.run cfgEpoch2 (correct_solution cfgEpoch2.lb cfgEpoch2.ub) (fun _ => 0) 1
        [⟨[0], 0⟩] ⟨[0], 0⟩ rng0 ∧
    DevALO.trajectory cfgEpoch2 (correct_solution cfgEpoch2.lb cfgEpoch2.ub) (fun _ => 0) 1
        [⟨[0], 0⟩] ⟨[0], 0⟩ rng0 =
      DevALO.trajectory cfgEpoch2 (correct_solution cfgEpoch2.lb cfgEpoch2.ub) (fun _ => 0) 1
        [⟨[0], 0⟩] ⟨[0], 0⟩ rng0 := by
  have h := run_deterministic cfgEpoch2 (correct_solution cfgEpoch2.lb cfgEpoch2.ub)
    (fun _ => 0) 1 [⟨[0], 0⟩] [⟨[0], 0⟩] ⟨[0], 0⟩ ⟨[0], 0⟩ rng0 rng0 rfl rfl rfl
  exact ⟨h.1, h.2.2.2⟩

/-- Modelled from the spec: `validator.check_int` of the framework validates
an integer parameter against an inclusive recommended range and fails fast
with a parameter-range error otherwise (§7); the raised error is modelled
as `Except.error`. -/
def check_int (pname : String) (value lo hi : ℤ) : Except String ℤ :=
  if lo ≤ value ∧ value ≤ hi then Except.ok value
  else Except.error (pname ++ " is out of range")

/-- `OriginalALO.__init__` (ALO.py lines 43-53): validate `epoch` against
`[1, 100000]` and `pop_size` against `[5, 10000]`, storing both unchanged
on success. -/
def OriginalALO.init_params (epoch pop_size : ℤ) : Except String (ℤ × ℤ) :=
  (check_int "epoch" epoch 1 100000).bind fun e =>
    (check_int "pop_size" pop_size 5 10000).map fun p => (e, p)

/-- `DevALO.__init__` (ALO.py lines 154-160) delegates to
`OriginalALO.__init__` unchanged. -/
def DevALO.init_params (epoch pop_size : ℤ) : Except String (ℤ × ℤ) :=
  OriginalALO.init_params epoch pop_size

/-- **C9.** Constructing either optimizer with `epoch` outside `[1, 100000]`
or `pop_size` outside `[5, 10000]` raises a parameter-range error at
construction time; inside those ranges construction succeeds and stores
`epoch` and `pop_size` unchanged. -/
theorem init_params_validation (epoch pop_size : ℤ) :
    ((epoch < 1 ∨ 100000 < epoch ∨ pop_size < 5 ∨ 10000 < pop_size) →
      (OriginalALO.init_params epoch pop_size).isOk = false ∧
      (DevALO.init_params epoch pop_size).isOk = false) ∧
    (1 ≤ epoch → epoch ≤ 100000 → 5 ≤ pop_size → pop_size ≤ 10000 →
      OriginalALO.init_params epoch pop_size = Except.ok (epoch, pop_size) ∧
      DevALO.init_params epoch pop_size = Except.ok (epoch, pop_size)) := by
  constructor
  · intro h
    have key : (OriginalALO.init_params epoch pop_size).isOk = false := by
      simp only [OriginalALO.init_params, check_int]
      split_ifs with h1 h2
      · exfalso
        rcases h with h | h | h | h <;> omega
      · rfl
      · rfl
      · rfl
    exact ⟨key, key⟩
  · intro h1 h2 h3 h4
    have key : OriginalALO.init_params epoch pop_size = Except.ok (epoch, pop_size) := by
      simp only [OriginalALO.init_params, check_int,
        if_pos (⟨h1, h2⟩ : (1 : ℤ) ≤ epoch ∧ epoch ≤ 100000),
        if_pos (⟨h3, h4⟩ : (5 : ℤ) ≤ pop_size ∧ pop_size ≤ 10000)]
      rfl
    exact ⟨key, key⟩

/-- Witness for C9: `epoch = 0` is rejected, `epoch = 10, pop_size = 50`
is accepted and stored unchanged. -/
theorem init_params_validation_witness :
    (OriginalALO.init_params 0 50).isOk = false ∧
    OriginalALO.init_params 10 50 = Except.ok (10, 50) := by
  refine ⟨((init_params_validation 0 50).1 (by norm_num)).1, ?_⟩
  exact ((init_params_validation 10 50).2 (by norm_num) (by norm_num) (by norm_num)
    (by norm_num)).1

/-- **C10 (amended).** The elite overwrite at the end of `evolve` (line 124
and line 219) is unconditional: in every generation in which the elite
survives the sorted-and-trimmed merge at a rank other than the last kept
slot, the resulting population contains the elite's solution at least
twice; and the solution of the agent that ranked `pop_size`-th is discarded
whenever it differs from the elite's and occupied only that last slot. -/
theorem elite_overwrite_duplicates (pop popNew : List Agent) (gb w : Agent) (n : ℕ)
    (m : Bool) (trimmed : List Agent)
    (htr : trimmed = get_sorted_and_trimmed_population (pop ++ popNew) n m)
    (hmem : gb ∈ trimmed.take (trimmed.length - 1))
    (hw : w = trimmed.getD (trimmed.length - 1) ⟨[], 0⟩) :
    2 ≤ ((eliteKeep trimmed gb).map (·.solution)).count gb.solution ∧
    (w.solution ∉ (trimmed.take (trimmed.length - 1)).map (·.solution) →
      w.solution ≠ gb.solution →
      w.solution ∉ (eliteKeep trimmed gb).map (·.solution)) := by
  have hne : trimmed.take (trimmed.length - 1) ≠ [] := by
    intro he; rw [he] at hmem; simp at hmem
  have hlen2 : 2 ≤ trimmed.length := by
    by_contra hc
    push_neg at hc
    have h0 : trimmed.length - 1 = 0 := by omega
    apply hne
    rw [h0, List.take_zero]
  have hlt : trimmed.length - 1 < trimmed.length := by omega
  have hset : eliteKeep trimmed gb = trimmed.take (trimmed.length - 1) ++ [gb] := by
    rw [eliteKeep, List.set_eq_take_append_cons_drop, if_pos hlt]
    have hdrop : trimmed.length - 1 + 1 = trimmed.length := by omega
    rw [hdrop, List.drop_length]
  constructor
  · rw [hset, List.map_append, List.count_append]
    have h1 : 1 ≤ ((trimmed.take (trimmed.length - 1)).map (·.solution)).count gb.solution :=
      List.one_le_count_iff.2 (List.mem_map_of_mem _ hmem)
    have h2 : (([gb].map (·.solution)).count gb.solution) = 1 := by simp
    omega
  · intro hnm hne2 hmem2
    rw [hset, List.map_append] at hmem2
    rcases List.mem_append.1 hmem2 with h | h
    · exact hnm h
    · simp at h
      exact hne2 h

/-- Witness for C10 (amended): the elite `⟨[7], 0⟩` ranks first among the
two kept agents, so after the overwrite its solution appears twice and the
solution `[5]` of the agent in the last kept slot is gone. -/
theorem elite_overwrite_duplicates_witness :
    2 ≤ ((eliteKeep (get_sorted_and_trimmed_population
        ([⟨[5], 1⟩, ⟨[7], 0⟩] ++ []) 2 true) ⟨[7], 0⟩).map (·.solution)).count
        ((Agent.mk [7] 0).solution) ∧
    (Agent.mk [5] 1).solution ∉ (eliteKeep (get_sorted_and_trimmed_population
        ([⟨[5], 1⟩, ⟨[7], 0⟩] ++ []) 2 true) ⟨[7], 0⟩).map (·.solution) := by
  have h := elite_overwrite_duplicates [⟨[5], 1⟩, ⟨[7], 0⟩] [] ⟨[7], 0⟩ ⟨[5], 1⟩ 2 true
    (get_sorted_and_trimmed_population ([⟨[5], 1⟩, ⟨[7], 0⟩] ++ []) 2 true) rfl
    (by norm_num [get_sorted_and_trimmed_population, sortBy, insertBy, fitLE])
    (by norm_num [get_sorted_and_trimmed_population, sortBy, insertBy, fitLE])
  refine ⟨h.1, h.2 ?_ ?_⟩
  · norm_num [get_sorted_and_trimmed_population, sortBy, insertBy, fitLE]
  · norm_num

/-- A concrete population whose last slot holds the elite, as `evolve`
leaves it; every fitness ties at `0`. -/
def popX : List Agent := [⟨[0], 0⟩, ⟨[1], 0⟩, ⟨[2], 0⟩, ⟨[3], 0⟩, ⟨[7], 0⟩]

/-- The elite of `popX`. -/
def gbX : Agent := ⟨[7], 0⟩

set_option maxRecDepth 4000

/-- **C10 (counterexample).** The claim as stated is false: under a constant
objective every agent ties, the elite survives the sorted-and-trimmed merge
(in its previous slot, the last kept one), yet the population at the end of
`OriginalALO.evolve` contains the elite's solution exactly once — the
overwrite replaces the elite itself, duplicating nothing and discarding
nothing that was kept. -/
theorem elite_survives_merge_but_solution_count_one :
    gbX ∈ get_sorted_and_trimmed_population
        (popX ++ (OriginalALO.pop_new cfgEpoch2 (correct_solution cfgEpoch2.lb cfgEpoch2.ub)
          (fun _ => 0) popX gbX 1 rng0).1) cfgEpoch2.pop_size cfgEpoch2.minimize ∧
    (((OriginalALO.evolve cfgEpoch2 (correct_solution cfgEpoch2.lb cfgEpoch2.ub)
        (fun _ => 0) popX gbX 1 rng0).1).map (·.solution)).count gbX.solution = 1 := by
  norm_num [OriginalALO.evolve, OriginalALO.pop_new, evolveLoop, OriginalALO.candidate,
    OriginalALO.random_walk_antlion__, walkRowsOriginal, recenter, normRow, rawWalk,
    cumsum, stepOf, listMin, listMax, shrinkI, matCol, Rng.next, Rng.nextVec,
    get_index_roulette_wheel_selection, correct_solution, get_sorted_and_trimmed_population,
    sortBy, insertBy, fitLE, eliteKeep, popX, gbX, cfgEpoch2, rng0, List.range_succ,
    min_def, max_def, List.count_cons, List.count_nil]
